import Mathlib

/-!
Verification of the word-match frequency pipeline
(`word_match_multi_chunked.py` and `web_app.py`, which share the same core).

The core pipeline is embedded shallowly:
* the tokenizer `re.findall(r"[a-zA-Z]+", text)` becomes `findWords`;
* the chunk generator `iter_chunks_wordlist` becomes `iter_chunks_wordlist`;
* the per-token lemma normalisation (lowercase + adverb "-ly" reduction)
  becomes `normalizeLemma`;
* `Counter(lemmas)` becomes `counterItems` (insertion-ordered keys with
  occurrence counts);
* the vocabulary matcher and its descending sort become `matched_words`
  and `sortByCountDesc`;
* the Streamlit run handler of `web_app.py` becomes `handleRun`, with the
  external spaCy annotator abstracted as a function argument.

Strings are modelled as `List Char`; the texts appearing in the claims are
ASCII, and `Char.toLower` agrees with Python `str.lower` on ASCII.
-/

namespace WordMatch

/-- The character class `[a-zA-Z]` of the word-extraction regex. -/
def isAsciiLetter (c : Char) : Bool :=
  ('a' ≤ c && c ≤ 'z') || ('A' ≤ c && c ≤ 'Z')

/-- Embedding of `re.findall(r"[a-zA-Z]+", text)`
(line 37 of `word_match_multi_chunked.py`, line 124 of `web_app.py`):
leftmost greedy matching takes each maximal run of ASCII letters in order and
skips every other character. -/
def findWords : List Char → List (List Char)
  | [] => []
  | c :: rest =>
    if isAsciiLetter c then
      (c :: rest.takeWhile isAsciiLetter) :: findWords (rest.dropWhile isAsciiLetter)
    else
      findWords rest
termination_by cs => cs.length
decreasing_by
  · exact Nat.lt_succ_of_le (List.Sublist.length_le (List.dropWhile_sublist _))
  · simp

/-- `MaxRuns cs ws` says that `ws` is exactly the sequence of maximal
contiguous runs of ASCII letters of `cs`, in document order: scanning `cs`
from the left, non-letter characters are separators contributing nothing,
and each nonempty all-letter segment that is followed by a non-letter (or
the end of the text) contributes exactly one word. -/
inductive MaxRuns : List Char → List (List Char) → Prop where
  | nil : MaxRuns [] []
  | sep {c : Char} {cs : List Char} {ws : List (List Char)} :
      isAsciiLetter c = false → MaxRuns cs ws → MaxRuns (c :: cs) ws
  | run {w cs : List Char} {ws : List (List Char)} :
      w ≠ [] → (∀ c ∈ w, isAsciiLetter c = true) →
      (∀ c, cs.head? = some c → isAsciiLetter c = false) →
      MaxRuns cs ws → MaxRuns (w ++ cs) (w :: ws)

theorem findWords_nil : findWords [] = [] := by
  simp [findWords]

theorem takeWhile_letters_append (w cs : List Char)
    (hw : ∀ c ∈ w, isAsciiLetter c = true)
    (hcs : ∀ c, cs.head? = some c → isAsciiLetter c = false) :
    (w ++ cs).takeWhile isAsciiLetter = w ∧ (w ++ cs).dropWhile isAsciiLetter = cs := by
  induction w with
  | nil =>
    simp only [List.nil_append]
    cases cs with
    | nil => simp
    | cons c cs => simp [List.takeWhile_cons, List.dropWhile_cons, hcs c rfl]
  | cons a w ih =>
    have ha := hw a (by simp)
    have h := ih (fun c hc => hw c (by simp [hc]))
    simp [List.takeWhile_cons, List.dropWhile_cons, ha, h.1, h.2]

theorem findWords_run (w cs : List Char) (hne : w ≠ [])
    (hw : ∀ c ∈ w, isAsciiLetter c = true)
    (hcs : ∀ c, cs.head? = some c → isAsciiLetter c = false) :
    findWords (w ++ cs) = w :: findWords cs := by
  cases w with
  | nil => exact absurd rfl hne
  | cons a w =>
    have ha := hw a (by simp)
    have h := takeWhile_letters_append w cs (fun c hc => hw c (by simp [hc])) hcs
    simp [findWords, ha, h.1, h.2]

theorem MaxRuns.eq_findWords {cs : List Char} {ws : List (List Char)}
    (h : MaxRuns cs ws) : ws = findWords cs := by
  induction h with
  | nil => exact findWords_nil.symm
  | sep hc _ ih => rw [ih]; simp [findWords, hc]
  | run hne hw hcs _ ih => rw [ih, findWords_run _ _ hne hw hcs]

theorem maxRuns_findWords : ∀ cs : List Char, MaxRuns cs (findWords cs)
  | [] => findWords_nil ▸ MaxRuns.nil
  | c :: rest => by
    by_cases h : isAsciiLetter c = true
    · have hw : ∀ x ∈ c :: rest.takeWhile isAsciiLetter, isAsciiLetter x = true := by
        intro x hx
        rcases List.mem_cons.mp hx with rfl | hx
        · exact h
        · exact List.mem_takeWhile_imp hx
      have hcs : ∀ x, (rest.dropWhile isAsciiLetter).head? = some x →
          isAsciiLetter x = false := by
        intro x hx
        have hd := List.head?_dropWhile_not isAsciiLetter rest
        rw [hx] at hd
        exact hd
      have hrec : MaxRuns (rest.dropWhile isAsciiLetter)
          (findWords (rest.dropWhile isAsciiLetter)) :=
        maxRuns_findWords (rest.dropWhile isAsciiLetter)
      have heq : findWords (c :: rest)
          = (c :: rest.takeWhile isAsciiLetter) :: findWords (rest.dropWhile isAsciiLetter) := by
        simp [findWords, h]
      have hsplit : c :: rest
          = (c :: rest.takeWhile isAsciiLetter) ++ rest.dropWhile isAsciiLetter := by
        simp [List.takeWhile_append_dropWhile]
      rw [heq, hsplit]
      exact MaxRuns.run (by simp) hw hcs hrec
    · have hrec := maxRuns_findWords rest
      have heq : findWords (c :: rest) = findWords rest := by
        simp [findWords, h]
      rw [heq]
      exact MaxRuns.sep (Bool.not_eq_true _ ▸ h) hrec
termination_by cs => cs.length
decreasing_by
  · exact Nat.lt_succ_of_le (List.Sublist.length_le (List.dropWhile_sublist _))
  · simp

theorem findWords_flatten : ∀ cs : List Char,
    (findWords cs).flatten = cs.filter isAsciiLetter
  | [] => by simp [findWords]
  | c :: rest => by
    by_cases h : isAsciiLetter c = true
    · have ih := findWords_flatten (rest.dropWhile isAsciiLetter)
      have hrest : rest.filter isAsciiLetter
          = rest.takeWhile isAsciiLetter
            ++ (rest.dropWhile isAsciiLetter).filter isAsciiLetter := by
        conv_lhs => rw [← @List.takeWhile_append_dropWhile _ isAsciiLetter rest]
        rw [List.filter_append,
          List.filter_eq_self.mpr (fun a ha => List.mem_takeWhile_imp ha)]
      simp [findWords, h, ih, hrest, List.filter_cons]
    · have ih := findWords_flatten rest
      simp [findWords, h, ih, List.filter_cons]
termination_by cs => cs.length
decreasing_by
  · exact Nat.lt_succ_of_le (List.Sublist.length_le (List.dropWhile_sublist _))
  · simp

/-- C5: the tokenizer produces exactly the maximal contiguous runs of ASCII
letters of the text, in document order (`MaxRuns cs ws ↔ ws = findWords cs`);
non-letter characters are pure separators and appear in no word; no run is
skipped or duplicated; concatenating the words gives back exactly the letters
of the text, case preserved; and the empty input yields the empty sequence. -/
theorem spec_C5_tokenizer_maximal_runs :
    (∀ (cs : List Char) (ws : List (List Char)), MaxRuns cs ws ↔ ws = findWords cs)
    ∧ (∀ cs : List Char, (findWords cs).flatten = cs.filter isAsciiLetter)
    ∧ findWords [] = [] :=
  ⟨fun cs _ws => ⟨fun h => h.eq_findWords, fun h => h ▸ maxRuns_findWords cs⟩,
    findWords_flatten, findWords_nil⟩

/-- The per-token output of the external spaCy annotator, as the core reads
it: `token.lemma_`, `token.pos_` (a coarse tag string, `"ADV"` for adverbs)
and `token.is_alpha`. -/
structure AnnotatedToken where
  lemma_ : List Char
  pos_ : String
  is_alpha : Bool
deriving DecidableEq

/-- Embedding of the lemma normalisation of the token loop
(lines 50-55 of `word_match_multi_chunked.py`, lines 144-148 of
`web_app.py`): lowercase the lemma; if the POS tag is `"ADV"` and the
lowercased lemma ends in `"ly"`, strip that suffix, and keep the stripped
form only when it is longer than 2 characters (`lemma[:-2]` is
`take (length - 2)`). -/
def normalizeLemma (token : AnnotatedToken) : List Char :=
  let lem := token.lemma_.map Char.toLower
  if token.pos_ == "ADV" && ['l', 'y'].isSuffixOf lem then
    let base := lem.take (lem.length - 2)
    if base.length > 2 then base else lem
  else lem

/-- The normalizer exactly as claim C1 words it: the lowercased lemma,
except that when the POS is adverb and the lowercased lemma ends with the
suffix `"ly"` and the lemma with that suffix stripped has length strictly
greater than 2, the stripped form is produced instead. -/
def normalizeLemmaSpec (token : AnnotatedToken) : List Char :=
  let lem := token.lemma_.map Char.toLower
  let stripped := lem.take (lem.length - 2)
  if token.pos_ = "ADV" ∧ ['l', 'y'] <:+ lem ∧ stripped.length > 2 then
    stripped
  else lem

theorem normalizeLemma_eq_spec (token : AnnotatedToken) :
    normalizeLemma token = normalizeLemmaSpec token := by
  by_cases h1 : token.pos_ = "ADV" <;>
  by_cases h2 : ['l', 'y'] <:+ token.lemma_.map Char.toLower <;>
  by_cases h3 : 2 <
      ((token.lemma_.map Char.toLower).take
        ((token.lemma_.map Char.toLower).length - 2)).length <;>
  simp [normalizeLemma, normalizeLemmaSpec, h1, h2, h3]

/-- C1: for every alphabetic AnnotatedToken the normalizer produces exactly
the lowercased lemma, except that an adverb lemma ending in `"ly"` whose
stripped base is longer than 2 characters is replaced by that base; in
particular `"quickly"`+ADV gives `"quick"`, `"only"`+ADV stays `"only"`
(base `"on"` has length 2), `"fly"`+ADV stays `"fly"`, and `"friendly"`
with a non-adverb POS stays `"friendly"`. -/
theorem spec_C1_adverb_reduction :
    (∀ token : AnnotatedToken, token.is_alpha = true →
      normalizeLemma token = normalizeLemmaSpec token)
    ∧ normalizeLemma ⟨"quickly".toList, "ADV", true⟩ = "quick".toList
    ∧ normalizeLemma ⟨"only".toList, "ADV", true⟩ = "only".toList
    ∧ normalizeLemma ⟨"fly".toList, "ADV", true⟩ = "fly".toList
    ∧ normalizeLemma ⟨"friendly".toList, "ADJ", true⟩ = "friendly".toList :=
  ⟨fun token _ => normalizeLemma_eq_spec token, by decide, by decide, by decide, by decide⟩

/-! ### Counter: the frequency map

`Counter(lemmas)` is a dictionary mapping each distinct element of the
list to its number of occurrences; keys appear in first-occurrence order.
-/

/-- The keys of `Counter(l)`: the distinct elements of `l` in
first-occurrence order (dict insertion order). -/
def counterKeys {α : Type} [DecidableEq α] (l : List α) : List α :=
  l.foldl (fun ks a => if a ∈ ks then ks else ks ++ [a]) []

/-- The (key, count) items of `Counter(l)`. -/
def counterItems {α : Type} [DecidableEq α] (l : List α) : List (α × Nat) :=
  (counterKeys l).map fun k => (k, l.count k)

theorem counterKeys_go_mem {α : Type} [DecidableEq α] (l : List α) :
    ∀ (acc : List α) (a : α),
      (a ∈ l.foldl (fun ks x => if x ∈ ks then ks else ks ++ [x]) acc
        ↔ a ∈ acc ∨ a ∈ l) := by
  induction l with
  | nil => simp
  | cons x l ih =>
    intro acc a
    simp only [List.foldl_cons]
    by_cases h : x ∈ acc
    · rw [if_pos h, ih]
      constructor
      · rintro (ha | ha)
        · exact Or.inl ha
        · exact Or.inr (List.mem_cons_of_mem _ ha)
      · rintro (ha | ha)
        · exact Or.inl ha
        · rcases List.mem_cons.mp ha with rfl | ha
          · exact Or.inl h
          · exact Or.inr ha
    · rw [if_neg h, ih]
      simp only [List.mem_append, List.mem_singleton, List.mem_cons]
      tauto

theorem mem_counterKeys {α : Type} [DecidableEq α] {l : List α} {a : α} :
    a ∈ counterKeys l ↔ a ∈ l := by
  rw [counterKeys, counterKeys_go_mem]
  simp

theorem counterKeys_go_nodup {α : Type} [DecidableEq α] (l : List α) :
    ∀ acc : List α, acc.Nodup →
      (l.foldl (fun ks x => if x ∈ ks then ks else ks ++ [x]) acc).Nodup := by
  induction l with
  | nil => exact fun acc h => h
  | cons x l ih =>
    intro acc hacc
    simp only [List.foldl_cons]
    by_cases h : x ∈ acc
    · rw [if_pos h]; exact ih acc hacc
    · rw [if_neg h]
      refine ih _ ?_
      simp [List.nodup_append, hacc, h]

theorem counterKeys_nodup {α : Type} [DecidableEq α] (l : List α) :
    (counterKeys l).Nodup :=
  counterKeys_go_nodup l [] List.nodup_nil

theorem counterItems_sum_length {α : Type} [DecidableEq α] (l : List α) :
    ((counterItems l).map Prod.snd).sum = l.length := by
  have h1 : ((counterItems l).map Prod.snd).sum
      = ((counterKeys l).map fun k => l.count k).sum := by
    rw [counterItems, List.map_map]
    rfl
  have h2 : ((counterKeys l).map fun k => l.count k).sum
      = (counterKeys l).toFinset.sum fun k => l.count k :=
    (List.sum_toFinset _ (counterKeys_nodup l)).symm
  have h3 : (counterKeys l).toFinset = l.toFinset := by
    ext a
    simp [mem_counterKeys]
  rw [h1, h2, h3, List.sum_toFinset_count_eq_length]

/-! ### The lemma loop and the frequency map

The token loop (lines 45-56 of `word_match_multi_chunked.py`, lines
131-149 of `web_app.py`) walks the annotated documents in order, keeps the
alphabetic tokens and appends each normalised lemma to `lemmas`; then
`word_counts = Counter(lemmas)`.
-/

/-- The `lemmas` list accumulated over all annotated documents. -/
def collectLemmas (docs : List (List AnnotatedToken)) : List (List Char) :=
  docs.flatMap fun doc => (doc.filter fun t => t.is_alpha).map normalizeLemma

/-- `word_counts = Counter(lemmas)`, as its (key, count) items. -/
def word_counts (docs : List (List AnnotatedToken)) : List (List Char × Nat) :=
  counterItems (collectLemmas docs)

theorem collectLemmas_eq (docs : List (List AnnotatedToken)) :
    collectLemmas docs = (docs.flatten.filter fun t => t.is_alpha).map normalizeLemma := by
  induction docs with
  | nil => simp [collectLemmas]
  | cons doc docs ih =>
    simp [collectLemmas, List.filter_append, List.map_append] at ih ⊢
    exact ih

/-- C2: the sum of all counts in the final frequency map equals the number
of AnnotatedTokens classified alphabetic across all chunks; the
adverb-reduction transform only rewrites the key a token contributes to
(one `lemmas` entry per alphabetic token), never how many increments
happen. -/
theorem spec_C2_total_count_invariant :
    ∀ docs : List (List AnnotatedToken),
      ((word_counts docs).map Prod.snd).sum
        = (docs.flatten.filter fun t => t.is_alpha).length
      ∧ (collectLemmas docs).length
        = (docs.flatten.filter fun t => t.is_alpha).length := by
  intro docs
  have hlen : (collectLemmas docs).length
      = (docs.flatten.filter fun t => t.is_alpha).length := by
    rw [collectLemmas_eq, List.length_map]
  exact ⟨(counterItems_sum_length (collectLemmas docs)).trans hlen, hlen⟩

/-- C6: the frequency map is a function only of the multiset of annotated
token values: two runs whose annotators produce, over all chunks, the same
tokens up to permutation (in particular any redistribution over chunk or
batch boundaries) assign the same count to every lemma; hence the pipeline
is deterministic, the map being a pure function of the token sequence. -/
theorem spec_C6_boundary_independence :
    ∀ docs1 docs2 : List (List AnnotatedToken),
      docs1.flatten.Perm docs2.flatten →
      ∀ w : List Char,
        (collectLemmas docs1).count w = (collectLemmas docs2).count w := by
  intro docs1 docs2 hperm w
  rw [collectLemmas_eq, collectLemmas_eq]
  exact ((hperm.filter _).map _).countP_eq (· == w)

/-- Closed instance of C6: splitting the same four tokens differently over
chunk boundaries leaves every count unchanged. -/
theorem spec_C6_witness :
    ([[(⟨"quickly".toList, "ADV", true⟩ : AnnotatedToken),
        ⟨"the".toList, "DET", true⟩],
      [⟨"dog".toList, "NOUN", true⟩]].flatten.Perm
      [[(⟨"quickly".toList, "ADV", true⟩ : AnnotatedToken)],
        [⟨"the".toList, "DET", true⟩, ⟨"dog".toList, "NOUN", true⟩]].flatten)
    ∧ ∀ w : List Char,
      (collectLemmas
          [[⟨"quickly".toList, "ADV", true⟩, ⟨"the".toList, "DET", true⟩],
            [⟨"dog".toList, "NOUN", true⟩]]).count w
        = (collectLemmas
            [[⟨"quickly".toList, "ADV", true⟩],
              [⟨"the".toList, "DET", true⟩, ⟨"dog".toList, "NOUN", true⟩]]).count w :=
  ⟨by decide,
    spec_C6_boundary_independence _ _ (by decide)⟩

/-- C10: every key of the frequency map has count at least 1 (no zero or
negative counts can occur, counts being occurrence numbers of present
keys), and an input with no alphabetic tokens — in particular no word
candidates at all — yields the empty map rather than an error. -/
theorem spec_C10_no_zero_counts :
    (∀ lemmas : List (List Char), ∀ p ∈ counterItems lemmas, 1 ≤ p.2)
    ∧ (∀ docs : List (List AnnotatedToken),
        (∀ doc ∈ docs, ∀ t ∈ doc, t.is_alpha = false) → word_counts docs = [])
    ∧ word_counts [] = [] := by
  refine ⟨?_, ?_, rfl⟩
  · intro lemmas p hp
    rcases List.mem_map.mp hp with ⟨k, hk, rfl⟩
    have : k ∈ lemmas := mem_counterKeys.mp hk
    simpa [Nat.succ_le, List.count_pos_iff] using this
  · intro docs h
    have hnil : collectLemmas docs = [] := by
      rw [collectLemmas_eq]
      suffices hf : docs.flatten.filter (fun t => t.is_alpha) = [] by
        rw [hf]; rfl
      rw [List.filter_eq_nil_iff]
      intro t ht
      rcases List.mem_flatten.mp ht with ⟨doc, hdoc, htd⟩
      simp [h doc hdoc t htd]
    rw [word_counts, hnil]
    rfl

/-! ### Chunk generator

`iter_chunks_wordlist` (lines 40-42 of `word_match_multi_chunked.py`,
lines 127-129 of `web_app.py`) yields, for `i = 0, chunk_words,
2*chunk_words, ...` below `len(wordlist)`, the string
`" ".join(wordlist[i:i+chunk_words])`. In Python, `range` with step 0
raises, so `chunk_words` is always at least 1 (the scripts fix it at
50000); the embedding guards that case by yielding nothing.
-/

/-- One yielded chunk: `" ".join` of a slice, i.e. the words interspersed
with single spaces. -/
def joinWords (ws : List (List Char)) : List Char :=
  [' '].intercalate ws

/-- The chunk generator: the word list is consumed `chunk_words` words at a
time, each slice joined into one text blob. -/
def iter_chunks_wordlist (wordlist : List (List Char)) (chunk_words : Nat) :
    List (List Char) :=
  if wordlist = [] ∨ chunk_words = 0 then []
  else
    joinWords (wordlist.take chunk_words)
      :: iter_chunks_wordlist (wordlist.drop chunk_words) chunk_words
termination_by wordlist.length
decreasing_by
  rename_i h
  push_neg at h
  have hpos : 0 < wordlist.length := List.length_pos.mpr h.1
  simp only [List.length_drop]
  omega

/-- The positional grouping underlying the chunk generator: the word list
cut into consecutive groups of `k` words, the last group possibly
smaller. -/
def groupsOf {α : Type} [DecidableEq α] (l : List α) (k : Nat) : List (List α) :=
  if l = [] ∨ k = 0 then []
  else l.take k :: groupsOf (l.drop k) k
termination_by l.length
decreasing_by
  rename_i h
  push_neg at h
  have hpos : 0 < l.length := List.length_pos.mpr h.1
  simp only [List.length_drop]
  omega

theorem groupsOf_flatten {α : Type} [DecidableEq α] (l : List α) (k : Nat)
    (hk : k ≠ 0) : (groupsOf l k).flatten = l := by
  induction l, k using groupsOf.induct with
  | case1 l k h =>
    rcases h with rfl | rfl
    · rw [groupsOf, if_pos (Or.inl rfl)]; rfl
    · exact absurd rfl hk
  | case2 l k h ih =>
    rw [groupsOf, if_neg h]
    simp only [List.flatten_cons]
    rw [ih hk]
    exact List.take_append_drop k l

theorem groupsOf_length_le {α : Type} [DecidableEq α] (l : List α) (k : Nat)
    (g : List α) (hg : g ∈ groupsOf l k) : g.length ≤ k := by
  induction l, k using groupsOf.induct with
  | case1 l k h =>
    rw [groupsOf, if_pos h] at hg
    exact absurd hg (List.not_mem_nil g)
  | case2 l k h ih =>
    rw [groupsOf, if_neg h] at hg
    rcases List.mem_cons.mp hg with rfl | hg
    · simp [Nat.min_le_left k l.length]
    · exact ih hg

theorem groupsOf_dropLast_length {α : Type} [DecidableEq α] (l : List α)
    (k : Nat) (g : List α) (hg : g ∈ (groupsOf l k).dropLast) : g.length = k := by
  induction l, k using groupsOf.induct with
  | case1 l k h =>
    rw [groupsOf, if_pos h] at hg
    exact absurd hg (List.not_mem_nil g)
  | case2 l k h ih =>
    rw [groupsOf, if_neg h] at hg
    push_neg at h
    by_cases hrest : l.drop k = []
    · rw [hrest] at hg ih
      rw [show groupsOf ([] : List α) k = [] from by
            rw [groupsOf, if_pos (Or.inl rfl)]] at hg
      exact absurd hg (List.not_mem_nil g)
    · have hlen : k < l.length := by
        by_contra hle
        exact hrest (List.drop_eq_nil_of_le (Nat.le_of_not_lt hle))
      have hne : groupsOf (l.drop k) k ≠ [] := by
        rw [groupsOf, if_neg (by simp [hrest, h.2])]
        exact List.cons_ne_nil _ _
      rw [List.dropLast_cons_of_ne_nil hne] at hg
      rcases List.mem_cons.mp hg with rfl | hg
      · simp only [List.length_take]
        omega
      · exact ih hg

/-- Splitting each yielded chunk back on the single-space separator gives
exactly the positional groups, provided no word contains a space (true of
word candidates, which are letter runs). -/
theorem iter_chunks_splitOn (wordlist : List (List Char)) (k : Nat) (hk : k ≠ 0)
    (hw : ∀ w ∈ wordlist, (' ' : Char) ∉ w) :
    (iter_chunks_wordlist wordlist k).map (fun chunk => chunk.splitOn ' ')
      = groupsOf wordlist k := by
  induction wordlist, k using iter_chunks_wordlist.induct with
  | case1 wordlist k h =>
    rcases h with rfl | rfl
    · rw [iter_chunks_wordlist, if_pos (Or.inl rfl),
        groupsOf, if_pos (Or.inl rfl)]
      rfl
    · exact absurd rfl hk
  | case2 wordlist k h ih =>
    have hne : wordlist ≠ [] := fun hc => h (Or.inl hc)
    rw [iter_chunks_wordlist, if_neg h, groupsOf, if_neg h]
    simp only [List.map_cons]
    congr 1
    · exact List.splitOn_intercalate (wordlist.take k) ' '
        (fun w hmem => hw w (List.mem_of_mem_take hmem))
        (by simpa [List.take_eq_nil_iff, hk] using hne)
    · exact ih hk (fun w hmem => hw w (List.mem_of_mem_drop hmem))

/-- C3: for every word list whose words contain no space (as is the case
for word candidates) and chunk size at least 1, the generator groups the
words positionally into chunks of at most `chunk_words` words joined by
single spaces — every chunk except possibly the last carries exactly
`chunk_words` words — and splitting every chunk on the single-space
separator and concatenating reproduces the original word sequence exactly,
order preserved, nothing lost or duplicated. -/
theorem spec_C3_chunking_roundtrip (wordlist : List (List Char)) (k : Nat)
    (hk : 1 ≤ k) (hw : ∀ w ∈ wordlist, (' ' : Char) ∉ w) :
    ((iter_chunks_wordlist wordlist k).map (fun chunk => chunk.splitOn ' ')).flatten
      = wordlist
    ∧ (∀ g ∈ (iter_chunks_wordlist wordlist k).map (fun chunk => chunk.splitOn ' '),
        g.length ≤ k)
    ∧ (∀ g ∈ ((iter_chunks_wordlist wordlist k).map
          (fun chunk => chunk.splitOn ' ')).dropLast,
        g.length = k) := by
  have hk0 : k ≠ 0 := by omega
  rw [iter_chunks_splitOn wordlist k hk0 hw]
  exact ⟨groupsOf_flatten wordlist k hk0,
    fun g hg => groupsOf_length_le wordlist k g hg,
    fun g hg => groupsOf_dropLast_length wordlist k g hg⟩

/-- Closed instance of C3: five one-letter words in chunks of two words. -/
theorem spec_C3_witness :
    (1 ≤ 2 ∧ ∀ w ∈ [['a'], ['b'], ['c'], ['d'], ['e']], (' ' : Char) ∉ w)
    ∧ (((iter_chunks_wordlist [['a'], ['b'], ['c'], ['d'], ['e']] 2).map
          (fun chunk => chunk.splitOn ' ')).flatten
        = [['a'], ['b'], ['c'], ['d'], ['e']]
      ∧ (∀ g ∈ (iter_chunks_wordlist [['a'], ['b'], ['c'], ['d'], ['e']] 2).map
            (fun chunk => chunk.splitOn ' '), g.length ≤ 2)
      ∧ (∀ g ∈ ((iter_chunks_wordlist [['a'], ['b'], ['c'], ['d'], ['e']] 2).map
            (fun chunk => chunk.splitOn ' ')).dropLast, g.length = 2)) :=
  ⟨⟨by decide, by decide⟩,
    spec_C3_chunking_roundtrip [['a'], ['b'], ['c'], ['d'], ['e']] 2
      (by decide) (by decide)⟩

/-! ### Progress reporting (`web_app.py` only)

Lines 132-140 of `web_app.py`: `total_chunks = (len(words) // CHUNK_WORDS) + 1`,
then after each document `current_chunk += 1` and
`progress_bar.progress(min(current_chunk / total_chunks, 1.0))`.
-/

/-- `total_chunks = (len(words) // CHUNK_WORDS) + 1` (line 132 of
`web_app.py`): floor division plus one. -/
def total_chunks (word_count chunk_words : Nat) : Nat :=
  word_count / chunk_words + 1

/-- Ceiling division, the formula the claim expects as the progress
denominator. -/
def ceilDivNat (a b : Nat) : Nat :=
  (a + b - 1) / b

/-- C4, counterexample: with 50000 words and chunk size 50000 (one exact
positive multiple), the code uses denominator 2 while the ceiling is 1. -/
theorem spec_C4_counterexample :
    total_chunks 50000 50000 = 2 ∧ ceilDivNat 50000 50000 = 1
      ∧ total_chunks 50000 50000 ≠ ceilDivNat 50000 50000 := by
  refine ⟨?_, ?_, ?_⟩ <;> decide

/-- C4, amended: the denominator actually used is
`word_count / chunk_size + 1`, which equals `ceil(word_count / chunk_size)`
exactly when `chunk_size` does not divide `word_count`, and exceeds the
ceiling by one when it does (the reported fraction itself being capped at
1.0 downstream). -/
theorem spec_C4_amended (word_count chunk_words : Nat) (hk : 1 ≤ chunk_words) :
    total_chunks word_count chunk_words
      = ceilDivNat word_count chunk_words
        + (if chunk_words ∣ word_count then 1 else 0) := by
  rcases Nat.eq_zero_or_pos chunk_words with rfl | hpos
  · exact absurd hk (by decide)
  by_cases hdvd : chunk_words ∣ word_count
  · obtain ⟨q, rfl⟩ := hdvd
    rw [if_pos ⟨q, rfl⟩]
    have h1 : chunk_words * q / chunk_words = q :=
      Nat.mul_div_cancel_left q hpos
    have h2 : ceilDivNat (chunk_words * q) chunk_words = q := by
      rw [ceilDivNat]
      have he : chunk_words * q + chunk_words - 1
          = (chunk_words - 1) + chunk_words * q := by omega
      rw [he, Nat.add_mul_div_left _ _ hpos,
        Nat.div_eq_of_lt (by omega)]
      omega
    rw [total_chunks, h1, h2]
  · rw [if_neg hdvd]
    set q := word_count / chunk_words with hq
    set r := word_count % chunk_words with hr
    have hmod : chunk_words * q + r = word_count :=
      Nat.div_add_mod word_count chunk_words
    have hrlt : r < chunk_words := Nat.mod_lt _ hpos
    have hrpos : 1 ≤ r := by
      rcases Nat.eq_zero_or_pos r with hz | h1
      · exact absurd (Nat.dvd_of_mod_eq_zero (hr.symm.trans hz)) hdvd
      · exact h1
    have h2 : ceilDivNat word_count chunk_words = q + 1 := by
      rw [ceilDivNat]
      have he : word_count + chunk_words - 1
          = (r - 1) + chunk_words * (q + 1) := by
        rw [Nat.mul_add, Nat.mul_one]
        omega
      rw [he, Nat.add_mul_div_left _ _ hpos,
        Nat.div_eq_of_lt (by omega)]
      omega
    rw [total_chunks, h2]

/-- Closed instance of the amended C4 at word count 5, chunk size 2. -/
theorem spec_C4_amended_witness :
    1 ≤ 2
    ∧ total_chunks 5 2 = ceilDivNat 5 2 + (if 2 ∣ 5 then 1 else 0) :=
  ⟨by decide, spec_C4_amended 5 2 (by decide)⟩

/-- The sequence of values handed to `progress_bar.progress` during a run
of `web_app.py`: the loop body runs once per chunk yielded by the
generator, incrementing `current_chunk` from 1, and reports
`min(current_chunk / total_chunks, 1.0)` (modelled over ℚ). -/
def progressValues (words : List (List Char)) (chunk_words : Nat) : List ℚ :=
  (List.range (iter_chunks_wordlist words chunk_words).length).map fun j : Nat =>
    min (((j : ℚ) + 1) / (total_chunks words.length chunk_words : ℚ)) 1

/-- C7: the progress values reported after each chunk form a monotonically
non-decreasing sequence, each lying in the closed interval [0, 1]. -/
theorem spec_C7_progress_monotone_bounded :
    ∀ (words : List (List Char)) (chunk_words : Nat),
      (progressValues words chunk_words).Chain' (· ≤ ·)
      ∧ ∀ p ∈ progressValues words chunk_words, 0 ≤ p ∧ p ≤ 1 := by
  intro words chunk_words
  have htot : (0 : ℚ) < (total_chunks words.length chunk_words : ℚ) := by
    have : 0 < total_chunks words.length chunk_words := Nat.succ_pos _
    exact_mod_cast this
  constructor
  · rw [progressValues]
    refine List.Pairwise.chain' ?_
    rw [List.pairwise_map]
    refine (List.pairwise_lt_range _).imp ?_
    intro i j hij
    refine min_le_min ?_ le_rfl
    rw [div_le_div_iff₀ htot htot]
    have hcast : (i : ℚ) ≤ (j : ℚ) := by exact_mod_cast Nat.le_of_lt hij
    nlinarith
  · intro p hp
    rcases List.mem_map.mp hp with ⟨j, _, rfl⟩
    constructor
    · exact le_min (div_nonneg (by positivity) (le_of_lt htot)) (by norm_num)
    · exact min_le_right _ _

/-! ### The run handler of `web_app.py`

Lines 109-158: on a click of the run button, if no book file is uploaded
an error is shown; otherwise if no vocabulary file is uploaded an error is
shown; only otherwise does the pipeline run (tokenize, chunk, annotate,
normalise, count) and is its result stored into
`st.session_state.analysis_results`. The external annotator
(`nlp.pipe`) maps the chunk sequence to one annotated document per chunk
and is abstracted as a function argument.
-/

/-- Outcome of a click of the run button. -/
inductive RunOutcome where
  | missingInput (message : String)
  | completed (result : List (List Char × Nat))
deriving DecidableEq

/-- The full core pipeline on an uploaded book text. -/
def runPipeline (annotate : List (List Char) → List (List AnnotatedToken))
    (text : List Char) : List (List Char × Nat) :=
  word_counts (annotate (iter_chunks_wordlist (findWords text) 50000))

/-- The run-button handler: the missing-input guards of lines 109-114 of
`web_app.py`, then the pipeline; the stored result
(`st.session_state.analysis_results`) is returned as the second component
and is only replaced in the success branch. -/
def handleRun (annotate : List (List Char) → List (List AnnotatedToken))
    (book_file : Option (List Char)) (vocab_files : List (List (List Char)))
    (stored : Option (List (List Char × Nat))) :
    RunOutcome × Option (List (List Char × Nat)) :=
  match book_file with
  | none => (RunOutcome.missingInput "未检测到书籍数据源", stored)
  | some text =>
    if vocab_files.isEmpty then
      (RunOutcome.missingInput "未检测到参考词表", stored)
    else
      let result := runPipeline annotate text
      (RunOutcome.completed result, some result)

/-- C8: when the book input or the vocabulary input is absent, a
missing-input error is the outcome and the stored result is unchanged;
the equations hold for every annotator, so no annotation (and hence no
tokenization, chunking or counting feeding it) is consulted in these
branches, and no frequency map is produced or stored. -/
theorem spec_C8_missing_input_guard :
    ∀ (annotate : List (List Char) → List (List AnnotatedToken))
      (vocab_files : List (List (List Char)))
      (stored : Option (List (List Char × Nat))),
      handleRun annotate none vocab_files stored
        = (RunOutcome.missingInput "未检测到书籍数据源", stored)
      ∧ ∀ text : List Char,
          handleRun annotate (some text) [] stored
            = (RunOutcome.missingInput "未检测到参考词表", stored) :=
  fun _ _ _ => ⟨rfl, fun _ => rfl⟩

/-! ### Vocabulary matcher

Lines 70-72 of `word_match_multi_chunked.py` and 181-182 of `web_app.py`:
`matched_words = {word: count for word, count in word_counts.items() if
word in vocab_words}` followed by a sort on the Count column in descending
order.
-/

/-- The dictionary comprehension filtering the frequency map by the
vocabulary set. -/
def matched_words (word_count_items : List (List Char × Nat))
    (vocab_words : List (List Char)) : List (List Char × Nat) :=
  word_count_items.filter fun p => p.1 ∈ vocab_words

/-- `df.sort_values(by="Count", ascending=False)`: the rows reordered into
descending count order. -/
def sortByCountDesc (rows : List (List Char × Nat)) : List (List Char × Nat) :=
  rows.mergeSort fun a b => decide (b.2 ≤ a.2)

/-- C9: the matcher table consists of exactly the frequency-map entries
whose key is in the vocabulary set (same pairs, counts unchanged — a
permutation of the filtered items), and it is sorted in descending order
of count. -/
theorem spec_C9_vocab_matcher :
    ∀ (word_count_items : List (List Char × Nat)) (vocab_words : List (List Char)),
      (sortByCountDesc (matched_words word_count_items vocab_words)).Perm
        (word_count_items.filter fun p => p.1 ∈ vocab_words)
      ∧ (sortByCountDesc (matched_words word_count_items vocab_words)).Pairwise
          fun a b => b.2 ≤ a.2 := by
  intro items vocab
  constructor
  · exact List.mergeSort_perm _ _
  · unfold sortByCountDesc
    refine List.Pairwise.imp ?_
      (List.sorted_mergeSort ?_ ?_ (matched_words items vocab))
    · intro a b hab
      simpa using hab
    · intro a b c hab hbc
      simp only [decide_eq_true_eq] at hab hbc ⊢
      omega
    · intro a b
      simp only [Bool.or_eq_true, decide_eq_true_eq]
      omega

end WordMatch
